import Mathlib

/-!
# Verification of the torrent client core

A shallow embedding in Lean 4 of the core data structures and algorithms of
the `torrent` BitTorrent client (C++), together with proofs and refutations of
the specified properties.  Bytes are modelled as `Nat` (values `< 256` where
the C++ type is `std::uint8_t` / `char`); machine-integer overflow is modelled
with explicit `% 2^w` where the C++ computes in a fixed-width type.

Sections follow the C++ components:
* `Torrent.Bitfield`    — `bitfield.hpp` (`has_piece`, `set_piece`,
  `assign_piece`, `piece_failed`)
* `Torrent.PeerManager` — `peer_manager.cpp` (`add`)
* `Torrent.Metadata`    — `metadata.hpp` (`on_piece_complete`,
  `is_file_complete`)
* `Torrent.Message`     — `message.hpp` (`get_int`)
* `Torrent.UdpTracker`  — `udp_tracker.cpp` (announce response peer loop)
* `Torrent.HttpTracker` — `http_tracker.hpp` (compact peer list port decode)
* `Torrent.Peer`        — `peer.cpp` (`send_requests`)
* `Torrent.Bencode`     — `bencode_parser.cpp` (serializer and parser)
-/

namespace Torrent

namespace Bitfield

/-- `Bitfield::has_piece_internal`:
`(vec[piece_index / 8] >> (7 - (piece_index % 8))) & 1`.
`vec` is the `std::vector<std::uint8_t>` of the bitfield. -/
def hasPieceInternal (vec : List Nat) (pieceIndex : Nat) : Bool :=
  (vec.getD (pieceIndex / 8) 0 >>> (7 - pieceIndex % 8)) &&& 1 = 1

/-- `Bitfield::set_piece_internal`:
`vec[piece_index / 8] |= (value << (7 - (piece_index % 8)))`. -/
def setPieceInternal (vec : List Nat) (pieceIndex value : Nat) : List Nat :=
  vec.set (pieceIndex / 8)
    (vec.getD (pieceIndex / 8) 0 ||| (value <<< (7 - pieceIndex % 8)))

/-- `Bitfield::has_piece`: returns `false` (after logging) when
`piece_index / 8 >= vec.size()`, otherwise the stored bit. -/
def hasPiece (vec : List Nat) (pieceIndex : Nat) : Bool :=
  if vec.length ≤ pieceIndex / 8 then false
  else hasPieceInternal vec pieceIndex

/-- `Bitfield::set_piece`: guarded by the same `piece_index / 8 >= vec.size()`
check, then a no-op when the bit is already set, else sets the bit.  (The
`on_piece_complete` callback is a side effect outside the bitfield state.) -/
def setPiece (vec : List Nat) (pieceIndex : Nat) : List Nat :=
  if vec.length ≤ pieceIndex / 8 then vec
  else if hasPieceInternal vec pieceIndex then vec
  else setPieceInternal vec pieceIndex 1

/-- `Bitfield::piece_failed`: for an engaged `PieceIndex` it calls
`set_piece_internal(piece_index, 0)`. -/
def pieceFailed (vec : List Nat) (pieceIndex : Option Nat) : List Nat :=
  match pieceIndex with
  | some i => setPieceInternal vec i 0
  | none => vec

/-- The inner loop of `Bitfield::assign_piece`:
`for (j = 0; j < 8; ++j) { bit = (value >> (7 - j)) & 1; if (bit != 0) ... }`.
Returns the first `j` whose bit is set, scanning most-significant first.
The first argument counts the remaining loop iterations (`8` at entry). -/
def findBitAux (value : Nat) : Nat → Nat → Option Nat
  | 0, _ => none
  | c + 1, j =>
    if (value >>> (7 - j)) &&& 1 ≠ 0 then some j
    else findBitAux value c (j + 1)

/-- The outer loop of `Bitfield::assign_piece`: for each byte index `i`,
`value = (uint8_t)(~vec[i]) & peer_bitfield.vec[i]`; if nonzero, find the
first set bit.  The `% 256` model the `std::uint8_t` element type. -/
def assignScan (vec peer : List Nat) (i : Nat) : Option (Nat × Nat) :=
  match vec, peer with
  | v :: vt, p :: pt =>
    let value := ((v % 256) ^^^ 255) &&& (p % 256)
    if value ≠ 0 then
      match findBitAux value 8 0 with
      | some j => some (i, j)
      | none => assignScan vt pt (i + 1)
    else assignScan vt pt (i + 1)
  | _, _ => none

/-- `Bitfield::assign_piece`: throws when the sizes differ (modelled as `none`
with the bitfield unchanged); otherwise scans for the first piece present in
`peer` and absent in `vec`, sets its bit in `vec`
(`vec[i] |= 1 << (7 - j)`) and returns `i * 8 + j`. -/
def assignPiece (vec peer : List Nat) : Option Nat × List Nat :=
  if vec.length ≠ peer.length then (none, vec)
  else
    match assignScan vec peer 0 with
    | some (i, j) =>
      (some (i * 8 + j), vec.set i (vec.getD i 0 ||| (1 <<< (7 - j))))
    | none => (none, vec)

/-- A sequence of `assign_piece` calls against successive peer bitfields,
collecting the returned piece indices (Scenario of claim C2). -/
def assignSeq (vec : List Nat) : List (List Nat) → List Nat
  | [] => []
  | p :: ps =>
    match assignPiece vec p with
    | (some k, vec') => k :: assignSeq vec' ps
    | (none, vec') => assignSeq vec' ps

end Bitfield

namespace PeerManager

/-- The observable state of `PeerManager` relevant to `add`: the key set of the
`peers` map, plus counters recording the side effects of `add`
(`std::make_shared<Peer>(...)` constructions and `peer->connect()` calls).
Endpoints are `(ip, port)` pairs. -/
structure State where
  peers : List (Nat × Nat)
  peersCreated : Nat
  connectsInitiated : Nat
deriving DecidableEq

/-- `PeerManager::add(endpoint)`: unconditionally constructs a `Peer`, calls
`connect()` on it, and then `peers.insert({endpoint, peer})`.
`std::map::insert` keeps the existing entry when the key is already present. -/
def add (s : State) (endpoint : Nat × Nat) : State :=
  { peers := if endpoint ∈ s.peers then s.peers else s.peers ++ [endpoint]
    peersCreated := s.peersCreated + 1
    connectsInitiated := s.connectsInitiated + 1 }

end PeerManager

namespace Metadata

/-- `2^64`, the modulus of `std::size_t` on the reference (64-bit) platform. -/
def W64 : Nat := 2 ^ 64

/-- `a - b` in `std::size_t` arithmetic (wrapping), for `a < 2^64`. -/
def sub64 (a b : Nat) : Nat := (a + (W64 - b % W64)) % W64

/-- `a * b` in `std::size_t` arithmetic (wrapping). -/
def mul64 (a b : Nat) : Nat := a * b % W64

/-- The `Metadata` counters involved in piece accounting.  `piecesLen` is
`pieces.size()` (20 bytes of SHA-1 per piece). -/
structure State where
  pieceLength : Nat
  totalLength : Nat
  piecesLen : Nat
  left : Nat
  piecesDone : Nat
deriving DecidableEq

/-- `Metadata::on_piece_complete(piece_index)`:
`piece_count = pieces.size() / 20; pieces_done += 1;` then
`left -= total_length - (piece_count - 1) * piece_length` for the last piece
index, else `left -= piece_length` — all in `std::size_t` arithmetic. -/
def onPieceComplete (m : State) (pieceIndex : Nat) : State :=
  let pieceCount := m.piecesLen / 20
  { m with
    piecesDone := (m.piecesDone + 1) % W64
    left :=
      if pieceIndex = sub64 pieceCount 1 then
        sub64 m.left (sub64 m.totalLength (mul64 (sub64 pieceCount 1) m.pieceLength))
      else
        sub64 m.left m.pieceLength }

/-- `Metadata::is_file_complete()`:
`piece_count = total_length / piece_length + (total_length % piece_length != 0);
return piece_count == pieces_done;`. -/
def isFileComplete (m : State) : Bool :=
  let pieceCount :=
    m.totalLength / m.pieceLength
      + (if m.totalLength % m.pieceLength ≠ 0 then 1 else 0)
  pieceCount = m.piecesDone

/-- Invoke `on_piece_complete` once for each index in the list, in order. -/
def run (m : State) : List Nat → State
  | [] => m
  | i :: rest => run (onPieceComplete m i) rest

end Metadata

/-- Big-endian read of `size` bytes of `payload` starting at `offset`
(missing bytes read as `0`; the C++ `memcpy` would read out of bounds
there). -/
def readBE (payload : List Nat) (offset size : Nat) : Nat :=
  (List.range size).foldl (fun acc k => acc * 256 + payload.getD (offset + k) 0) 0

namespace Message

/-- `Message::get_int<std::uint32_t>(int_index)`: throws (modelled `none`) when
`payload.size() < int_index * sizeof(IntegerType)`, otherwise `memcpy`s
`sizeof(IntegerType) = 4` bytes from offset `int_index * 4` and converts from
big-endian.  The model reads bytes past the end as `0` where the C++ `memcpy`
reads out of bounds. -/
def getInt (payload : List Nat) (intIndex : Nat) : Option Nat :=
  if payload.length < intIndex * 4 then none
  else some (readBE payload (intIndex * 4) 4)

/-- The byte range that the `memcpy` in `get_int` reads lies inside the payload
iff `(int_index + 1) * 4 ≤ payload.size()`. -/
def getIntReadInBounds (payloadLength intIndex : Nat) : Bool :=
  (intIndex + 1) * 4 ≤ payloadLength

end Message

namespace UdpTracker

/-- The announce-response peer loop of `UdpTracker::change_state`:
`for (offset = 20; offset < response.length() - 6; ++offset)` reading a 4-byte
big-endian IPv4 and a 2-byte big-endian port at each `offset`.  The first
argument counts the remaining iterations (`length - 6 - 20` at entry: the
loop advances `offset` by `1` per iteration). -/
def announceLoopAux (resp : List Nat) : Nat → Nat → List (Nat × Nat)
  | 0, _ => []
  | iters + 1, offset =>
    (readBE resp offset 4, readBE resp (offset + 4) 2)
      :: announceLoopAux resp iters (offset + 1)

/-- The peers emitted (via `on_new_peer`) by the announce response handler for
a response of `resp.length` bytes. -/
def announcePeers (resp : List Nat) : List (Nat × Nat) :=
  announceLoopAux resp (resp.length - 6 - 20) 20

end UdpTracker

namespace HttpTracker

/-- `(std::uint16_t)(char)b` on the reference platform (`char` is signed):
bytes `≥ 128` sign-extend into the high byte. -/
def sx8To16 (b : Nat) : Nat := if b < 128 then b else 65280 + b

/-- `boost::endian::big_to_native` on a 16-bit value, on the little-endian
reference platform: swap the two bytes. -/
def bswap16 (x : Nat) : Nat := x % 256 * 256 + x / 256

/-- The port computed by `BasicHttpTracker::listen_packet` for one 6-byte
compact peer entry with final two bytes `p4 = peer_string[i+4]` and
`p5 = peer_string[i+5]`:
`port = (uint16_t)((uint16_t)p5 << 8) | (uint16_t)p4` followed by
`boost::endian::big_to_native(port)`. -/
def compactPeerPort (p4 p5 : Nat) : Nat :=
  bswap16 ((sx8To16 p5 * 256) % 65536 ||| sx8To16 p4)

end HttpTracker

namespace Peer

/-- `2^32`, the modulus of `std::uint32_t`. -/
def U32 : Nat := 2 ^ 32

/-- The request loop of `Peer::send_requests`
(`for (; current_block < end_block; ++current_block)`), emitting
`(index, begin, length)` triples of the Request messages sent.  The first
`Nat` argument counts remaining iterations (`end_block - current_block` at
entry); the second is `current_block`.  Casts to `std::uint32_t` are
modelled as `% U32`; `block_count - 1` and `piece_count - 1` are `std::size_t`
subtractions, so the comparisons are guarded by `≠ 0` (for a zero count the
C++ comparison against `2^64 - 1` is false). -/
def sendRequestsLoop (pieceIndex32 pieceLength32 blockLength blockCount
    pieceCount fileSize32 : Nat) : Nat → Nat → List (Nat × Nat × Nat)
  | 0, _ => []
  | iters + 1, cb =>
    let beginOff := cb * blockLength % U32
    let len0 :=
      if blockCount ≠ 0 ∧ cb = blockCount - 1 then
        (pieceLength32 + (U32 - beginOff)) % U32
      else blockLength % U32
    if pieceCount ≠ 0 ∧ pieceIndex32 = pieceCount - 1 then
      let start := (pieceIndex32 * pieceLength32 + beginOff) % U32
      if fileSize32 ≤ (start + len0) % U32 then
        [(pieceIndex32, beginOff, (fileSize32 + (U32 - start)) % U32)]
      else
        (pieceIndex32, beginOff, len0)
          :: sendRequestsLoop pieceIndex32 pieceLength32 blockLength blockCount
              pieceCount fileSize32 iters (cb + 1)
    else
      (pieceIndex32, beginOff, len0)
        :: sendRequestsLoop pieceIndex32 pieceLength32 blockLength blockCount
            pieceCount fileSize32 iters (cb + 1)

/-- One call of `Peer::send_requests`: `end_block = min(block_count,
current_block + request_per_call)`, then the loop above.  `pieceIndex`,
`pieceLength` and `fileSize` (`get_total_length()`) are cast to
`std::uint32_t` at their use sites. -/
def sendRequests (pieceIndex pieceLength blockLength blockCount pieceCount
    fileSize requestPerCall currentBlock : Nat) : List (Nat × Nat × Nat) :=
  let endBlock := min blockCount (currentBlock + requestPerCall)
  sendRequestsLoop (pieceIndex % U32) (pieceLength % U32) blockLength
    blockCount pieceCount (fileSize % U32) (endBlock - currentBlock) currentBlock

end Peer

namespace Bencode

/-- `std::isdigit` on the byte values the parser meets. -/
def isDigit (c : Nat) : Bool := 48 ≤ c && c ≤ 57

/-- `std::isspace` (C locale): space, tab, newline, vertical tab, form feed,
carriage return. -/
def isSpace (c : Nat) : Bool := c = 32 || (9 ≤ c && c ≤ 13)

/-- The leading-whitespace skip performed by `operator>>` on a formatted
integer extraction. -/
def skipWs : List Nat → List Nat
  | [] => []
  | c :: r => if isSpace c then skipWs r else c :: r

/-- Consume a maximal run of decimal digits, accumulating their value. -/
def readDigitsAux (acc : Nat) : List Nat → Nat × List Nat
  | [] => (acc, [])
  | c :: r => if isDigit c then readDigitsAux (acc * 10 + (c - 48)) r else (acc, c :: r)

/-- Read one or more decimal digits; fails when the first byte is not a
digit. -/
def readNatDigits : List Nat → Option (Nat × List Nat)
  | [] => none
  | c :: r => if isDigit c then some (readDigitsAux 0 (c :: r)) else none

/-- `*stream >> value` for the parser's `Integer` (`int`) type: skip leading
whitespace, optional sign, then one or more digits.  On a value outside the
`int` range the C++ stream sets `failbit`, after which the following
`stream->get()` returns `EOF` and the enclosing parse function throws — so
overflow is modelled as failure (`none`), like the missing-digits case. -/
def readCppInt (input : List Nat) : Option (Int × List Nat) :=
  match skipWs input with
  | [] => none
  | c :: r =>
    if c = 45 then
      match readNatDigits r with
      | some (n, r') => if (n : Int) ≤ 2 ^ 31 then some (-(n : Int), r') else none
      | none => none
    else if c = 43 then
      match readNatDigits r with
      | some (n, r') => if n < 2 ^ 31 then some ((n : Int), r') else none
      | none => none
    else
      match readNatDigits (c :: r) with
      | some (n, r') => if n < 2 ^ 31 then some ((n : Int), r') else none
      | none => none

/-- `BencodeParser::Element`: `std::variant<int, std::string, List,
Dictionary>` with `List = std::vector<Element>` and `Dictionary =
std::map<std::string, Element>`.  Byte strings are byte lists; a dictionary
is its ordered key/value sequence (a `std::map` iterates in strictly
increasing key order). -/
inductive Element where
  | int (value : Int)
  | str (value : List Nat)
  | list (elements : List Element)
  | dict (entries : List (List Nat × Element))

/-- Decimal digits of `n`, most significant first, as printed by
`operator<<`. -/
def natDecimal (n : Nat) : List Nat :=
  if n < 10 then [48 + n]
  else natDecimal (n / 10) ++ [48 + n % 10]
decreasing_by exact Nat.div_lt_self (by omega) (by omega)

/-- `stream << value` for an `int`: optional minus sign then decimal
digits. -/
def intToDecimal (v : Int) : List Nat :=
  if v < 0 then 45 :: natDecimal (-v).toNat else natDecimal v.toNat

mutual

/-- `BencodeParser::Element::element_to_bencode`:
integers as `i<value>e`, strings as `<size>:<bytes>`, lists as
`l<items>e`, dictionaries as `d<key><value>...e` with entries in the map's
iteration (key) order. -/
def bencode : Element → List Nat
  | .int v => 105 :: (intToDecimal v ++ [101])
  | .str s => natDecimal s.length ++ 58 :: s
  | .list xs => 108 :: (bencodeItems xs ++ [101])
  | .dict kvs => 100 :: (bencodePairs kvs ++ [101])

/-- The list-element loop of `element_to_bencode`. -/
def bencodeItems : List Element → List Nat
  | [] => []
  | x :: t => bencode x ++ bencodeItems t

/-- The dictionary-entry loop of `element_to_bencode`: for each pair, the key
as `<size>:<bytes>` then the serialized value. -/
def bencodePairs : List (List Nat × Element) → List Nat
  | [] => []
  | (k, v) :: t => (natDecimal k.length ++ 58 :: k) ++ (bencode v ++ bencodePairs t)

end

mutual

/-- Recursion budget sufficient to parse `bencode x` back (the C++ parser's
recursion is bounded only by the nesting of the input). -/
def neededFuel : Element → Nat
  | .int _ => 1
  | .str _ => 1
  | .list xs => 1 + neededItems xs
  | .dict kvs => 1 + neededPairs kvs

def neededItems : List Element → Nat
  | [] => 1
  | x :: t => 1 + max (neededFuel x) (neededItems t)

def neededPairs : List (List Nat × Element) → Nat
  | [] => 1
  | (_, v) :: t => 1 + max (neededFuel v) (neededPairs t)

end

/-- `std::string` `operator<` (via `char_traits<char>::compare`, which
compares bytes as `unsigned char`): lexicographic byte order, a strict
prefix ordering first. -/
def ltString : List Nat → List Nat → Bool
  | [], [] => false
  | [], _ :: _ => true
  | _ :: _, [] => false
  | a :: x, b :: y => if a < b then true else if b < a then false else ltString x y

/-- `std::map<std::string, Element>::emplace(k, v)` on the ordered entry
sequence: insert at the sorted position; when the key is already present the
existing entry is kept. -/
def emplace (k : List Nat) (v : Element) : List (List Nat × Element) → List (List Nat × Element)
  | [] => [(k, v)]
  | (k', v') :: t =>
    if ltString k k' then (k, v) :: (k', v') :: t
    else if ltString k' k then (k', v') :: emplace k v t
    else (k', v') :: t

/-- `BencodeParser::parse_string`: `*stream >> length` (the first digit byte
has not been consumed, `peek` only looked at it), `stream->get() == ':'`,
then read `length` bytes.  A negative `length` makes `value.resize` throw;
when fewer than `length` bytes remain the C++ stream fails (and every
enclosing parse then throws; only a top-level bare string would return a
zero-padded value), modelled as `none`. -/
def parseStr (input : List Nat) : Option (List Nat × List Nat) :=
  match readCppInt input with
  | some (len, r) =>
    match r with
    | c :: r' =>
      if c = 58 then
        if len < 0 then none
        else if r'.length < len.toNat then none
        else some (r'.take len.toNat, r'.drop len.toNat)
      else none
    | [] => none
  | none => none

mutual

/-- `BencodeParser::parse_next(next_char)`: dispatch on the peeked byte —
digit → `parse_string`, `'i'` → `parse_int`, `'l'` → `parse_list`,
`'d'` → `parse_dictionary`, otherwise throw.  The `Nat` argument is the
recursion budget (the C++ recursion depth is unbounded). -/
def parseNext : Nat → List Nat → Option (Element × List Nat)
  | _, [] => none
  | 0, _ :: _ => none
  | fuel + 1, c :: rest =>
    if isDigit c then
      match parseStr (c :: rest) with
      | some (s, r) => some (.str s, r)
      | none => none
    else if c = 105 then
      match readCppInt rest with
      | some (v, r) =>
        match r with
        | c2 :: r' => if c2 = 101 then some (.int v, r') else none
        | [] => none
      | none => none
    else if c = 108 then
      match parseItems fuel rest with
      | some (xs, r) => some (.list xs, r)
      | none => none
    else if c = 100 then
      match parsePairs fuel [] rest with
      | some (kvs, r) => some (.dict kvs, r)
      | none => none
    else none

/-- The loop of `BencodeParser::parse_list`: while the peeked byte is not
`'e'` (throwing on `EOF`), `parse_next` an element; finally consume the
`'e'`. -/
def parseItems : Nat → List Nat → Option (List Element × List Nat)
  | _, [] => none
  | 0, _ :: _ => none
  | fuel + 1, c :: rest =>
    if c = 101 then some ([], rest)
    else
      match parseNext fuel (c :: rest) with
      | some (x, r) =>
        match parseItems fuel r with
        | some (xs, r') => some (x :: xs, r')
        | none => none
      | none => none

/-- The loop of `BencodeParser::parse_dictionary`: while the peeked byte is
not `'e'` (throwing on `EOF`), `parse_string` a key, `parse_next` a value,
and `emplace` the pair into the accumulated map; finally consume the
`'e'`. -/
def parsePairs : Nat → List (List Nat × Element) → List Nat →
    Option (List (List Nat × Element) × List Nat)
  | _, _, [] => none
  | 0, _, _ :: _ => none
  | fuel + 1, acc, c :: rest =>
    if c = 101 then some (acc, rest)
    else
      match parseStr (c :: rest) with
      | some (k, r) =>
        match parseNext fuel r with
        | some (v, r') => parsePairs fuel (emplace k v acc) r'
        | none => none
      | none => none

end

/-- `BencodeParser::parse` on an in-memory stream: parse one `Element` from
the front of the input.  (The C++ `parse` first peeks the stream; serializer
output never starts with whitespace, so the `operator>>` whitespace skip
inside `parse_int`/`parse_string` is the only one reachable and is modelled
in `readCppInt`.)  The C++ recursion terminates on any finite stream
(every recursive step consumes input); the embedding bounds the recursion
with `input.length + 1` budget, which is never exhausted on serializer
output (`neededFuel_le_length`). -/
def bdecode (input : List Nat) : Option Element :=
  (parseNext (input.length + 1) input).map Prod.fst

/-- Well-formed `Element` trees: the values representable by the C++
`BencodeParser::Element` whose serialization the parser can read back —
integers within `int` range, byte strings of bytes (length within `int`
range, as read back by `*stream >> length`), and dictionaries with entries
in strictly increasing key order (the `std::map` invariant). -/
inductive WellFormed : Element → Prop where
  | int {v : Int} : -(2 ^ 31) ≤ v → v < 2 ^ 31 → WellFormed (.int v)
  | str {s : List Nat} : s.length < 2 ^ 31 → (∀ b ∈ s, b < 256) →
      WellFormed (.str s)
  | list {xs : List Element} : (∀ x ∈ xs, WellFormed x) → WellFormed (.list xs)
  | dict {kvs : List (List Nat × Element)} :
      List.Chain' (fun a b => ltString a b = true) (kvs.map Prod.fst) →
      (∀ kv ∈ kvs, kv.1.length < 2 ^ 31) →
      (∀ kv ∈ kvs, ∀ b ∈ kv.1, b < 256) →
      (∀ kv ∈ kvs, WellFormed kv.2) →
      WellFormed (.dict kvs)

end Bencode

/-! ## Theorems -/

theorem shiftRight_and_one_eq_one_iff (x k : Nat) :
    ((x >>> k) &&& 1 = 1) ↔ x.testBit k := by
  simp [Nat.testBit, Nat.and_one_is_mod, Nat.one_and_eq_mod_two]

theorem getD_set_self (l : List Nat) (n x : Nat) (h : n < l.length) :
    (l.set n x).getD n 0 = x := by
  simp [List.getD, List.getElem?_set, h]

theorem getD_set_self_oor (l : List Nat) (n x : Nat) (h : ¬n < l.length) :
    (l.set n x).getD n 0 = l.getD n 0 := by
  simp [List.getD, List.getElem?_set, h,
    List.getElem?_eq_none (show l.length ≤ n by omega)]

theorem getD_set_ne (l : List Nat) (n m x : Nat) (h : n ≠ m) :
    (l.set n x).getD m 0 = l.getD m 0 := by
  simp [List.getD, List.getElem?_set, h]

namespace Bitfield

theorem findBitAux_eq_some (value : Nat) :
    ∀ c j j', findBitAux value c j = some j' →
      j ≤ j' ∧ j' < j + c ∧ value.testBit (7 - j') := by
  intro c
  induction c with
  | zero => intro j j' h; simp [findBitAux] at h
  | succ c ih =>
    intro j j' h
    simp only [findBitAux] at h
    split at h
    · rename_i hbit
      cases h
      refine ⟨le_refl _, by omega, ?_⟩
      rw [← shiftRight_and_one_eq_one_iff]
      rw [Nat.and_one_is_mod] at hbit ⊢
      omega
    · obtain ⟨h1, h2, h3⟩ := ih (j + 1) j' h
      exact ⟨by omega, by omega, h3⟩

theorem assignScan_eq_some :
    ∀ (vec peer : List Nat) (i i' j : Nat), assignScan vec peer i = some (i', j) →
      i ≤ i' ∧ i' - i < vec.length ∧ j < 8 ∧
      ((((vec.getD (i' - i) 0 % 256) ^^^ 255) &&&
        (peer.getD (i' - i) 0 % 256)).testBit (7 - j)) := by
  intro vec
  induction vec with
  | nil => intro peer i i' j h; cases peer <;> simp [assignScan] at h
  | cons v vt ih =>
    intro peer i i' j h
    cases peer with
    | nil => simp [assignScan] at h
    | cons p pt =>
      simp only [assignScan] at h
      split at h
      · rename_i hval
        cases hfb : findBitAux (((v % 256) ^^^ 255) &&& (p % 256)) 8 0 with
        | some j0 =>
          rw [hfb] at h
          simp only [Option.some.injEq, Prod.mk.injEq] at h
          obtain ⟨rfl, rfl⟩ := h
          obtain ⟨_, hj2, hj3⟩ := findBitAux_eq_some _ 8 0 j0 hfb
          refine ⟨le_refl _, by simp, by omega, ?_⟩
          simpa using hj3
        | none =>
          rw [hfb] at h
          obtain ⟨h1, h2, h3, h4⟩ := ih pt (i + 1) i' j h
          refine ⟨by omega, by simp; omega, h3, ?_⟩
          have hi : i' - i = (i' - (i + 1)) + 1 := by omega
          rw [hi]
          simpa using h4
      · obtain ⟨h1, h2, h3, h4⟩ := ih pt (i + 1) i' j h
        refine ⟨by omega, by simp; omega, h3, ?_⟩
        have hi : i' - i = (i' - (i + 1)) + 1 := by omega
        rw [hi]
        simpa using h4

theorem assignPiece_eq_some (vec peer : List Nat) (k : Nat)
    (h : (assignPiece vec peer).1 = some k) :
    hasPieceInternal vec k = false ∧ k / 8 < vec.length ∧
    (assignPiece vec peer).2 = setPieceInternal vec k 1 := by
  unfold assignPiece at h ⊢
  split at h
  · simp at h
  · rename_i hlen
    cases hscan : assignScan vec peer 0 with
    | none => rw [hscan] at h; simp at h
    | some ij =>
      rcases ij with ⟨i, j⟩
      rw [hscan] at h
      simp only [Option.some.injEq] at h
      obtain ⟨_, hilen, hj8, hbit⟩ := assignScan_eq_some vec peer 0 i j hscan
      simp only [Nat.sub_zero] at hilen hbit
      have hdiv : k / 8 = i := by omega
      have hmod : k % 8 = j := by omega
      have hvbit : (vec.getD i 0).testBit (7 - j) = false := by
        have h256 : (256 : Nat) = 2 ^ 8 := by norm_num
        have hb255 : Nat.testBit 255 (7 - j) = true := by
          have h255 : (255 : Nat) = 2 ^ 8 - 1 := by norm_num
          rw [h255, Nat.testBit_two_pow_sub_one]
          simp only [decide_eq_true_eq]
          omega
        have hd : decide (7 - j < 8) = true := by
          simp only [decide_eq_true_eq]
          omega
        rw [h256, Nat.testBit_and, Nat.testBit_xor, Nat.testBit_mod_two_pow,
          Nat.testBit_mod_two_pow, hb255, hd, Bool.xor_true] at hbit
        simp only [Bool.true_and, Bool.and_eq_true] at hbit
        simpa using hbit.1
      refine ⟨?_, by omega, ?_⟩
      · simp only [hasPieceInternal, hdiv, hmod, decide_eq_false_iff_not]
        rw [shiftRight_and_one_eq_one_iff, hvbit]
        simp
      · split
        · omega
        · rename_i hlen2
          cases hscan2 : assignScan vec peer 0 with
          | none => rw [hscan2] at hscan; cases hscan
          | some ij2 =>
            rw [hscan2] at hscan
            cases hscan
            simp only [setPieceInternal, hdiv, hmod]

theorem assignPiece_eq_none (vec peer : List Nat)
    (h : (assignPiece vec peer).1 = none) : (assignPiece vec peer).2 = vec := by
  by_cases hl : vec.length ≠ peer.length
  · simp [assignPiece, hl]
  · cases hscan : assignScan vec peer 0 with
    | none => simp [assignPiece, hl, hscan]
    | some ij =>
      rcases ij with ⟨i, j⟩
      simp [assignPiece, hl, hscan] at h

theorem hasPieceInternal_setPieceInternal_one_self (vec : List Nat) (k : Nat)
    (h : k / 8 < vec.length) :
    hasPieceInternal (setPieceInternal vec k 1) k = true := by
  simp only [hasPieceInternal, setPieceInternal, decide_eq_true_eq]
  rw [getD_set_self vec _ _ h]
  rw [shiftRight_and_one_eq_one_iff]
  simp [Nat.testBit_lor, Nat.testBit_shiftLeft]

theorem hasPieceInternal_mono (vec : List Nat) (k m : Nat)
    (h : hasPieceInternal vec m = true) :
    hasPieceInternal (setPieceInternal vec k 1) m = true := by
  simp only [hasPieceInternal, decide_eq_true_eq] at h ⊢
  rw [shiftRight_and_one_eq_one_iff] at h ⊢
  unfold setPieceInternal
  by_cases hk : k / 8 = m / 8
  · rw [hk]
    by_cases hlen : m / 8 < vec.length
    · rw [getD_set_self vec _ _ hlen, Nat.testBit_lor, h]
      simp
    · rw [getD_set_self_oor vec _ _ hlen]
      exact h
  · rw [getD_set_ne vec _ _ _ hk]
    exact h

theorem not_mem_assignSeq_of_bit_set :
    ∀ (ps : List (List Nat)) (vec : List Nat) (m : Nat),
      hasPieceInternal vec m = true → m ∉ assignSeq vec ps := by
  intro ps
  induction ps with
  | nil => intro vec m _; simp [assignSeq]
  | cons p ps ih =>
    intro vec m h
    rcases hap : assignPiece vec p with ⟨o, vec'⟩
    cases o with
    | some k =>
      have h2 : assignSeq vec (p :: ps) = k :: assignSeq vec' ps := by
        simp [assignSeq, hap]
      rw [h2]
      obtain ⟨hclear, hlt, hupd⟩ := assignPiece_eq_some vec p k (by rw [hap])
      simp only [List.mem_cons, not_or]
      constructor
      · rintro rfl
        rw [h] at hclear
        cases hclear
      · apply ih vec'
        have hv : vec' = setPieceInternal vec k 1 := by rw [hap] at hupd; exact hupd
        rw [hv]
        exact hasPieceInternal_mono vec k m h
    | none =>
      have h2 : assignSeq vec (p :: ps) = assignSeq vec' ps := by
        simp [assignSeq, hap]
      have hv : vec' = vec := by
        have := assignPiece_eq_none vec p (by rw [hap])
        rw [hap] at this
        exact this
      rw [h2, hv]
      exact ih vec m h

/-- C1 (code bug): `piece_failed` is a no-op and does not clear the assigned
bit.  On the one-byte bitfield `[0x80]` obtained after `assign_piece`
returned piece `0`, `piece_failed(0)` leaves the bitfield at `[0x80]` with
bit `0` still set (`set_piece_internal(i, 0)` ORs with `0 << k`, which
cannot clear anything), so a subsequent `assign_piece` against a peer that
has piece `0` returns no piece instead of `0`. -/
theorem pieceFailed_leaves_bit_set :
    pieceFailed [128] (some 0) = [128] ∧
    hasPieceInternal (pieceFailed [128] (some 0)) 0 = true ∧
    (assignPiece (pieceFailed [128] (some 0)) [128]).1 = none := by
  decide

/-- C2: over any sequence of `assign_piece` calls on the same bitfield (with
no interleaved `piece_failed`), no piece index is returned twice: each
successful call sets the returned bit in the shared bitfield and later calls
only pick indices whose bit is still clear. -/
theorem assign_piece_never_repeats (vec : List Nat) (peers : List (List Nat)) :
    (assignSeq vec peers).Nodup := by
  induction peers generalizing vec with
  | nil => simp [assignSeq]
  | cons p ps ih =>
    rcases hap : assignPiece vec p with ⟨o, vec'⟩
    cases o with
    | some k =>
      have h2 : assignSeq vec (p :: ps) = k :: assignSeq vec' ps := by
        simp [assignSeq, hap]
      rw [h2]
      refine List.nodup_cons.mpr ⟨?_, ih vec'⟩
      obtain ⟨hclear, hlt, hupd⟩ := assignPiece_eq_some vec p k (by rw [hap])
      have hv : vec' = setPieceInternal vec k 1 := by rw [hap] at hupd; exact hupd
      rw [hv]
      exact not_mem_assignSeq_of_bit_set ps _ k
        (hasPieceInternal_setPieceInternal_one_self vec k hlt)
    | none =>
      have h2 : assignSeq vec (p :: ps) = assignSeq vec' ps := by
        simp [assignSeq, hap]
      have hv : vec' = vec := by
        have := assignPiece_eq_none vec p (by rw [hap])
        rw [hap] at this
        exact this
      rw [h2, hv]
      exact ih vec

/-- C9 (counterexample): on a bitfield for `piece_count = 1` (one byte, so
seven padding bits), the out-of-range guard of `has_piece` only rejects
`piece_index / 8 >= vec.size()`.  A prior `set_piece(6)` — or an
`assign_piece` against a peer bitfield whose padding bit 6 is set, which
returns the padding index `6` — makes `has_piece(6)` return `true` even
though `6 ≥ piece_count`. -/
theorem hasPiece_padding_counterexample :
    hasPiece (setPiece [0] 6) 6 = true ∧
    (assignPiece [0] [2]).1 = some 6 ∧
    hasPiece (assignPiece [0] [2]).2 6 = true := by
  decide

/-- C9 (amended): `has_piece(i)` returns `false` (after logging) exactly for
the indices rejected by the guard, i.e. whenever `i / 8 ≥ vec.size()`
(equivalently `i ≥ 8 · vec.size()`); indices in the padding range
`piece_count ≤ i < 8 · vec.size()` read the stored padding bit instead. -/
theorem hasPiece_false_of_byte_out_of_range (vec : List Nat) (i : Nat)
    (h : 8 * vec.length ≤ i) : hasPiece vec i = false := by
  have hle : vec.length ≤ i / 8 := by
    rw [Nat.le_div_iff_mul_le (by omega)]
    omega
  simp [hasPiece, hle]

/-- Witness for `hasPiece_false_of_byte_out_of_range` at `vec = [255]`,
`i = 8`. -/
theorem hasPiece_false_of_byte_out_of_range_witness :
    8 * ([255] : List Nat).length ≤ 8 ∧ hasPiece [255] 8 = false :=
  ⟨by decide, hasPiece_false_of_byte_out_of_range [255] 8 (by decide)⟩

end Bitfield

namespace PeerManager

/-- C5 (counterexample): a second `add` of an endpoint already in the map is
not a no-op.  `add` constructs a new `Peer` and calls `connect()` on it
before the (deduplicating) map insert, so the state changes even though the
peer map does not. -/
theorem add_duplicate_not_noop :
    add ⟨[(1, 2)], 1, 1⟩ (1, 2) ≠ ⟨[(1, 2)], 1, 1⟩ := by
  decide

/-- C5 (amended): for an endpoint already present, `add` leaves the peer map
unchanged (`std::map::insert` keeps the existing entry), but it still
constructs a new `Peer` object and initiates an outbound connection before
the duplicate insert is discarded. -/
theorem add_duplicate_keeps_map (s : State) (e : Nat × Nat) (h : e ∈ s.peers) :
    (add s e).peers = s.peers ∧
    (add s e).peersCreated = s.peersCreated + 1 ∧
    (add s e).connectsInitiated = s.connectsInitiated + 1 := by
  simp [add, h]

/-- Witness for `add_duplicate_keeps_map` at the one-entry map. -/
theorem add_duplicate_keeps_map_witness :
    ((1, 2) ∈ (⟨[(1, 2)], 1, 1⟩ : State).peers) ∧
    ((add ⟨[(1, 2)], 1, 1⟩ (1, 2)).peers = [(1, 2)] ∧
     (add ⟨[(1, 2)], 1, 1⟩ (1, 2)).peersCreated = 2 ∧
     (add ⟨[(1, 2)], 1, 1⟩ (1, 2)).connectsInitiated = 2) :=
  ⟨by decide, add_duplicate_keeps_map ⟨[(1, 2)], 1, 1⟩ (1, 2) (by decide)⟩

end PeerManager

namespace Metadata

theorem sub64_eq_sub (a b : Nat) (ha : a < W64) (hb : b ≤ a) :
    sub64 a b = a - b := by
  simp only [sub64, W64] at *
  omega

theorem sub64_lt (a b : Nat) : sub64 a b < W64 := by
  simp only [sub64, W64]
  omega

theorem mul64_eq_mul (a b : Nat) (h : a * b < W64) : mul64 a b = a * b := by
  simp only [mul64, W64] at *
  omega

/-- One `on_piece_complete` call, with the `std::size_t` expressions for the
last-piece test and decrement reduced to their mathematical values. -/
theorem onPieceComplete_eq (pl tl plen left done i : Nat)
    (hplenW : plen < W64) (hpc1 : 1 ≤ plen / 20) (htlW : tl < W64)
    (hlastlt : (plen / 20 - 1) * pl < tl) :
    onPieceComplete ⟨pl, tl, plen, left, done⟩ i =
      ⟨pl, tl, plen,
       sub64 left (if i = plen / 20 - 1 then tl - (plen / 20 - 1) * pl else pl),
       (done + 1) % W64⟩ := by
  have hpcW : plen / 20 < W64 := lt_of_le_of_lt (Nat.div_le_self _ _) hplenW
  have hsub1 : sub64 (plen / 20) 1 = plen / 20 - 1 := sub64_eq_sub _ _ hpcW hpc1
  have hmul : mul64 (plen / 20 - 1) pl = (plen / 20 - 1) * pl :=
    mul64_eq_mul _ _ (lt_trans hlastlt htlW)
  have hsubtl : sub64 tl ((plen / 20 - 1) * pl) = tl - (plen / 20 - 1) * pl :=
    sub64_eq_sub _ _ htlW (le_of_lt hlastlt)
  simp only [onPieceComplete, hsub1, hmul, hsubtl]
  by_cases hi : i = plen / 20 - 1 <;> simp [hi]

/-- The fold of `on_piece_complete` over a list of piece indices: static
fields are unchanged, `left` stays below `2^64` and decreases (mod `2^64`)
by the sum of the per-piece decrements, and `pieces_done` increases by the
list length (mod `2^64`). -/
theorem run_spec (pl tl plen : Nat)
    (hplenW : plen < W64) (hpc1 : 1 ≤ plen / 20) (htlW : tl < W64)
    (hplW : pl < W64) (hlastlt : (plen / 20 - 1) * pl < tl) :
    ∀ (l : List Nat) (left done : Nat), left < W64 → done < W64 →
      (run ⟨pl, tl, plen, left, done⟩ l).pieceLength = pl ∧
      (run ⟨pl, tl, plen, left, done⟩ l).totalLength = tl ∧
      (run ⟨pl, tl, plen, left, done⟩ l).piecesLen = plen ∧
      (run ⟨pl, tl, plen, left, done⟩ l).left < W64 ∧
      ((run ⟨pl, tl, plen, left, done⟩ l).left +
          (l.map (fun i => if i = plen / 20 - 1
            then tl - (plen / 20 - 1) * pl else pl)).sum) % W64 = left % W64 ∧
      (run ⟨pl, tl, plen, left, done⟩ l).piecesDone = (done + l.length) % W64 := by
  intro l
  induction l with
  | nil =>
    intro left done hleft hdone
    refine ⟨rfl, rfl, rfl, hleft, by simp [run], ?_⟩
    simp only [run, List.length_nil, Nat.add_zero, W64] at hdone ⊢
    omega
  | cons i l ih =>
    intro left done hleft hdone
    have hstep := onPieceComplete_eq pl tl plen left done i hplenW hpc1 htlW hlastlt
    have hrun : run ⟨pl, tl, plen, left, done⟩ (i :: l) =
        run (onPieceComplete ⟨pl, tl, plen, left, done⟩ i) l := rfl
    rw [hrun, hstep]
    set d := if i = plen / 20 - 1 then tl - (plen / 20 - 1) * pl else pl with hd
    have hdW : d < W64 := by
      rw [hd]
      split
      · omega
      · exact hplW
    have hdone1 : (done + 1) % W64 < W64 := by
      simp only [W64]
      omega
    obtain ⟨h1, h2, h3, h4, h5, h6⟩ :=
      ih (sub64 left d) ((done + 1) % W64) (sub64_lt _ _) hdone1
    refine ⟨h1, h2, h3, h4, ?_, ?_⟩
    · simp only [List.map_cons, List.sum_cons]
      have hl' : sub64 left d = (left + (W64 - d % W64)) % W64 := rfl
      simp only [W64] at h5 hl' hdW hleft ⊢
      omega
    · rw [h6]
      simp only [List.length_cons, W64]
      omega

theorem range_sum_decrements (pl tl plen : Nat) (hpc1 : 1 ≤ plen / 20)
    (hlastlt : (plen / 20 - 1) * pl < tl) :
    ((List.range (plen / 20)).map (fun i => if i = plen / 20 - 1
      then tl - (plen / 20 - 1) * pl else pl)).sum = tl := by
  set K := plen / 20 - 1 with hK
  have hpc : plen / 20 = K + 1 := by omega
  rw [hpc, List.range_succ, List.map_append, List.sum_append]
  have hcong : (List.range K).map (fun i => if i = K then tl - K * pl else pl) =
      (List.range K).map (fun _ => pl) := by
    apply List.map_congr_left
    intro a ha
    rw [List.mem_range] at ha
    rw [if_neg (by omega)]
  rw [hcong]
  simp only [List.map_const', List.sum_replicate, smul_eq_mul, List.map_cons,
    List.map_nil, List.sum_cons, List.sum_nil, List.length_range,
    eq_self_iff_true, if_true]
  omega

/-- C6: piece accounting of `Metadata`.  For a metadata whose `pieces` string
is consistent with its lengths (`pieces.size()/20 = ceil(total/piece)`):
(1) `on_piece_complete(i)` for a non-last index increments `pieces_done` and
decrements `left` by `piece_length`; (2) for the last index it decrements
`left` by `total_length - (piece_count - 1) * piece_length`; (3) from
`left = total_length, pieces_done = 0`, invoking it once per piece index (in
any order) drives `left` to `0` and makes `is_file_complete()` true; and
(4) `is_file_complete()` holds exactly when
`pieces_done = ceil(total_length / piece_length)`. -/
theorem metadata_piece_accounting (pl tl plen : Nat)
    (hpl : 0 < pl) (htl : 0 < tl) (htlW : tl < W64) (hplW : pl < W64)
    (hplenW : plen < W64)
    (hpc : plen / 20 = tl / pl + (if tl % pl ≠ 0 then 1 else 0)) :
    (∀ left done i, i ≠ plen / 20 - 1 → pl ≤ left → left < W64 → done + 1 < W64 →
      onPieceComplete ⟨pl, tl, plen, left, done⟩ i =
        ⟨pl, tl, plen, left - pl, done + 1⟩) ∧
    (∀ left done, tl - (plen / 20 - 1) * pl ≤ left → left < W64 → done + 1 < W64 →
      onPieceComplete ⟨pl, tl, plen, left, done⟩ (plen / 20 - 1) =
        ⟨pl, tl, plen, left - (tl - (plen / 20 - 1) * pl), done + 1⟩) ∧
    (∀ l, l.Perm (List.range (plen / 20)) →
      (run ⟨pl, tl, plen, tl, 0⟩ l).left = 0 ∧
      (run ⟨pl, tl, plen, tl, 0⟩ l).piecesDone = plen / 20 ∧
      isFileComplete (run ⟨pl, tl, plen, tl, 0⟩ l) = true) ∧
    (∀ left done, isFileComplete ⟨pl, tl, plen, left, done⟩ =
      decide (tl / pl + (if tl % pl ≠ 0 then 1 else 0) = done)) := by
  have hdm := Nat.div_add_mod tl pl
  have hmlt : tl % pl < pl := Nat.mod_lt _ hpl
  have hcm : tl / pl * pl = pl * (tl / pl) := Nat.mul_comm _ _
  have hkey : tl ≤ plen / 20 * pl ∧ plen / 20 * pl < tl + pl := by
    by_cases hr : tl % pl = 0
    · have hpc' : plen / 20 = tl / pl := by
        rw [hpc, if_neg (fun h => h hr)]
        omega
      have hmul : plen / 20 * pl = pl * (tl / pl) := by
        rw [hpc']
        exact Nat.mul_comm _ _
      omega
    · have hpc' : plen / 20 = tl / pl + 1 := by
        rw [hpc, if_pos hr]
      have hmul : plen / 20 * pl = pl * (tl / pl) + pl := by
        rw [hpc', Nat.succ_mul, hcm]
      omega
  have hpc1 : 1 ≤ plen / 20 := by
    rcases Nat.eq_zero_or_pos (plen / 20) with hq | hq
    · rw [hq, Nat.zero_mul] at hkey
      omega
    · omega
  have hsub1 : (plen / 20 - 1) * pl = plen / 20 * pl - pl := Nat.sub_one_mul _ _
  have hlastlt : (plen / 20 - 1) * pl < tl := by omega
  refine ⟨?_, ?_, ?_, ?_⟩
  · intro left done i hi hple hlw hdw
    rw [onPieceComplete_eq pl tl plen left done i hplenW hpc1 htlW hlastlt]
    rw [if_neg hi, sub64_eq_sub left pl hlw hple, Nat.mod_eq_of_lt hdw]
  · intro left done hple hlw hdw
    rw [onPieceComplete_eq pl tl plen left done _ hplenW hpc1 htlW hlastlt]
    rw [if_pos rfl, sub64_eq_sub left _ hlw hple, Nat.mod_eq_of_lt hdw]
  · intro l hperm
    obtain ⟨h1, h2, h3, h4, h5, h6⟩ :=
      run_spec pl tl plen hplenW hpc1 htlW hplW hlastlt l tl 0 htlW
        (by simp [W64])
    have hsum : (l.map (fun i => if i = plen / 20 - 1
        then tl - (plen / 20 - 1) * pl else pl)).sum = tl := by
      rw [(hperm.map _).sum_eq]
      exact range_sum_decrements pl tl plen hpc1 hlastlt
    rw [hsum] at h5
    have hlen : l.length = plen / 20 := by
      rw [hperm.length_eq, List.length_range]
    have hleft0 : (run ⟨pl, tl, plen, tl, 0⟩ l).left = 0 := by
      simp only [W64] at h5 h4 htlW
      omega
    have hdone : (run ⟨pl, tl, plen, tl, 0⟩ l).piecesDone = plen / 20 := by
      rw [h6, hlen, Nat.zero_add, Nat.mod_eq_of_lt]
      simp only [W64] at hplenW ⊢
      omega
    refine ⟨hleft0, hdone, ?_⟩
    simp only [isFileComplete, h1, h2, hdone, ← hpc, decide_eq_true_eq]
  · intro left done
    rfl

/-- Witness for `metadata_piece_accounting`: `piece_length = 4`,
`total_length = 10`, `pieces.size() = 60` (3 pieces), completing the pieces
in the order `[2, 0, 1]`. -/
theorem metadata_piece_accounting_witness :
    ((0 : Nat) < 4 ∧ (0 : Nat) < 10 ∧ (10 : Nat) < W64 ∧ (4 : Nat) < W64 ∧
      (60 : Nat) < W64 ∧
      (60 : Nat) / 20 = 10 / 4 + (if (10 : Nat) % 4 ≠ 0 then 1 else 0)) ∧
    ((run ⟨4, 10, 60, 10, 0⟩ [2, 0, 1]).left = 0 ∧
      (run ⟨4, 10, 60, 10, 0⟩ [2, 0, 1]).piecesDone = 60 / 20 ∧
      isFileComplete (run ⟨4, 10, 60, 10, 0⟩ [2, 0, 1]) = true) :=
  ⟨⟨by decide, by decide, by norm_num [W64], by norm_num [W64], by norm_num [W64],
      by decide⟩,
    (metadata_piece_accounting 4 10 60 (by decide) (by decide)
        (by norm_num [W64]) (by norm_num [W64]) (by norm_num [W64])
        (by decide)).2.2.1 [2, 0, 1] (by decide)⟩

end Metadata

namespace Message

/-- C10 (code bug): the guard of `get_int` tests
`payload.size() < int_index * sizeof(T)` rather than
`payload.size() < (int_index + 1) * sizeof(T)`, so it does not guarantee the
`memcpy`'s 4-byte read is in bounds: `get_int(0)` on an empty payload does
not throw (the model returns the value read from out-of-bounds-as-zero
bytes), yet the read range `[0, 4)` lies outside the payload. -/
theorem getInt_guard_allows_out_of_bounds_read :
    getInt [] 0 = some 0 ∧ getIntReadInBounds (List.length ([] : List Nat)) 0 = false := by
  decide

end Message

namespace UdpTracker

/-- C3 (code bug): the announce-response peer loop advances its byte cursor
by `1` (not `6`) and stops at `offset < length - 6`.  For a 26-byte response
carrying exactly one compact peer entry the handler emits `0` endpoints
while the claim (and the handler's own log line, which prints
`(length - 20) / 6`) gives `1`; for a 32-byte response with two entries it
emits `6` overlapping endpoints instead of `2`. -/
theorem announcePeers_wrong_stride :
    announcePeers
        [0, 0, 0, 1, 0, 0, 0, 0, 0, 0, 0, 0, 0, 0, 0, 0, 0, 0, 0, 0,
         1, 2, 3, 4, 0, 80] = [] ∧
    (26 - 20) / 6 = 1 ∧
    (announcePeers
        [0, 0, 0, 1, 0, 0, 0, 0, 0, 0, 0, 0, 0, 0, 0, 0, 0, 0, 0, 0,
         1, 2, 3, 4, 0, 80, 5, 6, 7, 8, 0, 81]).length = 6 ∧
    (32 - 20) / 6 = 2 := by
  decide

end UdpTracker

theorem lor_eq_add_of_land_eq_zero : ∀ a b : Nat, a &&& b = 0 → a ||| b = a + b := by
  intro a
  induction a using Nat.binaryRec with
  | z => intro b _; simp
  | f abit m ih =>
    intro b h
    rw [← Nat.bit_decomp b] at h ⊢
    rw [Nat.land_bit] at h
    rw [Nat.lor_bit]
    rw [Nat.bit_eq_zero_iff] at h
    obtain ⟨hm, hb⟩ := h
    rw [ih b.div2 hm]
    rcases habit : abit <;> rcases hbbit : b.bodd <;>
      simp only [habit, hbbit, Bool.and_self, Bool.and_false, Bool.and_true,
        Bool.false_and, Bool.true_and, Bool.or_self, Bool.or_false,
        Bool.false_or, Bool.true_or, Nat.bit_val, Bool.toNat_true,
        Bool.toNat_false] at hb ⊢ <;>
      first
      | exact Bool.noConfusion hb
      | omega

theorem mul256_land_eq_zero (x y : Nat) (h : y < 256) : (x * 256) &&& y = 0 := by
  apply Nat.eq_of_testBit_eq
  intro i
  rw [Nat.testBit_and, Nat.zero_testBit]
  have hx : x * 256 = x <<< 8 := by simp [Nat.shiftLeft_eq]
  rw [hx, Nat.testBit_shiftLeft]
  by_cases hi : i < 8
  · simp [show ¬(i ≥ 8) by omega]
  · rw [Nat.testBit_lt_two_pow (show y < 2 ^ i by
      calc y < 256 := h
        _ ≤ 2 ^ i := by
          have h28 : (256 : Nat) = 2 ^ 8 := by norm_num
          rw [h28]
          exact Nat.pow_le_pow_right (by omega) (by omega))]
    simp

theorem mul256_lor_mul256 (a b : Nat) : (a * 256) ||| (b * 256) = (a ||| b) * 256 := by
  apply Nat.eq_of_testBit_eq
  intro i
  have h2 : ∀ z : Nat, z * 256 = z <<< 8 := fun z => by simp [Nat.shiftLeft_eq]
  rw [Nat.testBit_lor, h2, h2, h2, Nat.testBit_shiftLeft, Nat.testBit_shiftLeft,
    Nat.testBit_shiftLeft, Nat.testBit_lor]
  by_cases hi : i ≥ 8 <;> simp [hi]

theorem lor_255_of_lt (x : Nat) (h : x < 256) : x ||| 255 = 255 := by
  apply Nat.eq_of_testBit_eq
  intro i
  rw [Nat.testBit_lor]
  have h255 : (255 : Nat) = 2 ^ 8 - 1 := by norm_num
  rw [h255, Nat.testBit_two_pow_sub_one]
  by_cases hi : i < 8
  · simp [hi]
  · rw [Nat.testBit_lt_two_pow (show x < 2 ^ i by
      calc x < 256 := h
        _ ≤ 2 ^ i := by
          have h28 : (256 : Nat) = 2 ^ 8 := by norm_num
          rw [h28]
          exact Nat.pow_le_pow_right (by omega) (by omega))]
    simp [hi]

namespace HttpTracker

theorem sx_mul256_mod (p5 : Nat) (h5 : p5 < 256) :
    (sx8To16 p5 * 256) % 65536 = p5 * 256 := by
  unfold sx8To16
  split <;> omega

/-- C4 (counterexample): for the compact peer entry with port bytes
`p[4] = 1`, `p[5] = 2`, the port handed to `on_new_peer` is `258`
(`= 256·p[4] + p[5]`), not the little-endian reading `p[4] + 256·p[5] = 513`
asserted by the claim: `boost::endian::big_to_native` byte-swaps the
assembled value on the little-endian reference platform. -/
theorem compactPeerPort_not_little_endian :
    compactPeerPort 1 2 = 258 ∧ 258 ≠ 1 + 256 * 2 := by
  decide

/-- C4 (amended): on the (little-endian, signed-`char`) reference platform
the delivered port is the byte-swap of `(p5 << 8) | p4`: the canonical
big-endian reading `256·p[4] + p[5]` whenever `p[4] < 128`; when
`p[4] ≥ 128` the sign extension of `char` floods the high byte before the
swap and the port becomes `256·p[4] + 255` (the `p[5]` byte is lost). -/
theorem compactPeerPort_eq_bswap (p4 p5 : Nat) (h4 : p4 < 256) (h5 : p5 < 256) :
    compactPeerPort p4 p5 =
      if p4 < 128 then 256 * p4 + p5 else 256 * p4 + 255 := by
  unfold compactPeerPort bswap16
  rw [sx_mul256_mod p5 h5]
  by_cases hp4 : p4 < 128
  · have hs4 : sx8To16 p4 = p4 := by unfold sx8To16; rw [if_pos hp4]
    rw [hs4, lor_eq_add_of_land_eq_zero _ _ (mul256_land_eq_zero p5 p4 h4)]
    rw [if_pos hp4]
    omega
  · have hs4 : sx8To16 p4 = 65280 + p4 := by unfold sx8To16; rw [if_neg hp4]
    have h65280 : (65280 : Nat) + p4 = 255 * 256 ||| p4 := by
      rw [lor_eq_add_of_land_eq_zero _ _ (mul256_land_eq_zero 255 p4 h4)]
    rw [hs4, h65280, ← Nat.lor_assoc, mul256_lor_mul256, lor_255_of_lt p5 h5,
      ← h65280]
    rw [if_neg hp4]
    omega

/-- Witness for `compactPeerPort_eq_bswap` at `p4 = 1`, `p5 = 2` and at
`p4 = 200`, `p5 = 2`. -/
theorem compactPeerPort_eq_bswap_witness :
    (1 < 256 ∧ 2 < 256 ∧ compactPeerPort 1 2 = 258) ∧
    (200 < 256 ∧ 2 < 256 ∧ compactPeerPort 200 2 = 256 * 200 + 255) :=
  ⟨⟨by decide, by decide, by
      have h := compactPeerPort_eq_bswap 1 2 (by decide) (by decide)
      simpa using h⟩,
   ⟨by decide, by decide, by
      have h := compactPeerPort_eq_bswap 200 2 (by decide) (by decide)
      simpa using h⟩⟩

end HttpTracker

namespace Peer

/-- The request loop for the last piece, from block `cb` on: until the
truncation block `K = (fs - pi·pl - 1) / bl` it emits full blocks
`(pi, k·bl, bl)`, and at `K` it emits the truncated request
`(pi, K·bl, r - K·bl)` (where `r = fs - pi·pl` is the length of the last
piece's data) and breaks. -/
theorem sendRequestsLoop_spec (pi pl bl bc pc fs : Nat)
    (hbl : 0 < bl) (hplbc : pl = bc * bl) (hbc1 : 0 < bc)
    (hpc : 0 < pc) (hpi : pi = pc - 1)
    (hlow : pi * pl < fs) (hhigh : fs ≤ pi * pl + pl) (hU : pi * pl + pl < U32) :
    ∀ d cb, cb + d = (fs - pi * pl - 1) / bl →
      sendRequestsLoop pi pl bl bc pc fs (bc - cb) cb =
        (List.range' cb d).map (fun k => (pi, k * bl, bl)) ++
          [(pi, ((fs - pi * pl - 1) / bl) * bl,
            (fs - pi * pl) - ((fs - pi * pl - 1) / bl) * bl)] := by
  have hKdm := Nat.div_add_mod (fs - pi * pl - 1) bl
  have hKmod : (fs - pi * pl - 1) % bl < bl := Nat.mod_lt _ hbl
  have hKcm : ((fs - pi * pl - 1) / bl) * bl = bl * ((fs - pi * pl - 1) / bl) :=
    Nat.mul_comm _ _
  have hKble : ((fs - pi * pl - 1) / bl) * bl ≤ fs - pi * pl - 1 :=
    Nat.div_mul_le_self _ _
  have hKbc : (fs - pi * pl - 1) / bl < bc := by
    have h1 : ((fs - pi * pl - 1) / bl) * bl ≤ pl - 1 := by omega
    by_contra hcon
    have h2 : bc * bl ≤ ((fs - pi * pl - 1) / bl) * bl :=
      Nat.mul_le_mul_right bl (by omega)
    omega
  intro d
  induction d with
  | zero =>
    intro cb hcb
    rw [Nat.add_zero] at hcb
    subst hcb
    have hiters : bc - (fs - pi * pl - 1) / bl =
        (bc - (fs - pi * pl - 1) / bl - 1) + 1 := by omega
    rw [hiters]
    show sendRequestsLoop pi pl bl bc pc fs (_ + 1) _ = _
    simp only [sendRequestsLoop]
    have hKpl : ((fs - pi * pl - 1) / bl) * bl + bl ≤ pl := by
      have h2 : ((fs - pi * pl - 1) / bl + 1) * bl ≤ bc * bl :=
        Nat.mul_le_mul_right bl (by omega)
      rw [Nat.succ_mul] at h2
      omega
    have hbegin : ((fs - pi * pl - 1) / bl) * bl % U32 = ((fs - pi * pl - 1) / bl) * bl := by
      apply Nat.mod_eq_of_lt
      omega
    rw [hbegin]
    have hlen0 : (if bc ≠ 0 ∧ (fs - pi * pl - 1) / bl = bc - 1 then
        (pl + (U32 - ((fs - pi * pl - 1) / bl) * bl)) % U32 else bl % U32) = bl := by
      split
      · rename_i hc
        have hKblbc : ((fs - pi * pl - 1) / bl) * bl = pl - bl := by
          rw [hc.2, Nat.sub_one_mul, ← hplbc]
        simp only [U32] at *
        omega
      · apply Nat.mod_eq_of_lt
        simp only [U32] at *
        omega
    rw [hlen0, if_pos ⟨by omega, hpi⟩]
    have hstart : (pi * pl + ((fs - pi * pl - 1) / bl) * bl) % U32 =
        pi * pl + ((fs - pi * pl - 1) / bl) * bl := by
      apply Nat.mod_eq_of_lt
      omega
    rw [hstart]
    have hsum : (pi * pl + ((fs - pi * pl - 1) / bl) * bl + bl) % U32 =
        pi * pl + ((fs - pi * pl - 1) / bl) * bl + bl := by
      apply Nat.mod_eq_of_lt
      omega
    rw [hsum, if_pos (by omega)]
    have hfs : (fs + (U32 - (pi * pl + ((fs - pi * pl - 1) / bl) * bl))) % U32 =
        (fs - pi * pl) - ((fs - pi * pl - 1) / bl) * bl := by
      simp only [U32] at *
      omega
    rw [hfs]
    simp
  | succ d ih =>
    intro cb hcb
    have hcbK : cb < (fs - pi * pl - 1) / bl := by omega
    have hiters : bc - cb = (bc - cb - 1) + 1 := by omega
    rw [hiters]
    show sendRequestsLoop pi pl bl bc pc fs (_ + 1) _ = _
    simp only [sendRequestsLoop]
    have hcb1K : (cb + 1) * bl ≤ ((fs - pi * pl - 1) / bl) * bl :=
      Nat.mul_le_mul_right bl (by omega)
    have hcbpl : (cb + 1) * bl ≤ pl := by
      have h2 : (cb + 1) * bl ≤ bc * bl := Nat.mul_le_mul_right bl (by omega)
      omega
    have hsucc : (cb + 1) * bl = cb * bl + bl := Nat.succ_mul _ _
    have hbegin : cb * bl % U32 = cb * bl := by
      apply Nat.mod_eq_of_lt
      omega
    rw [hbegin]
    have hlen0 : (if bc ≠ 0 ∧ cb = bc - 1 then
        (pl + (U32 - cb * bl)) % U32 else bl % U32) = bl := by
      rw [if_neg]
      · apply Nat.mod_eq_of_lt
        simp only [U32] at *
        omega
      · rintro ⟨-, hc⟩
        have h2 : ((fs - pi * pl - 1) / bl) * bl ≤ (bc - 1) * bl := by
          apply Nat.mul_le_mul_right bl
          omega
        rw [← hc] at h2
        omega
    rw [hlen0, if_pos (by exact ⟨by omega, hpi⟩)]
    have hstart : (pi * pl + cb * bl) % U32 = pi * pl + cb * bl := by
      apply Nat.mod_eq_of_lt
      omega
    rw [hstart]
    have hsum : (pi * pl + cb * bl + bl) % U32 = pi * pl + cb * bl + bl := by
      apply Nat.mod_eq_of_lt
      omega
    rw [hsum, if_neg (by omega)]
    have hnext : bc - cb - 1 = bc - (cb + 1) := by omega
    rw [hnext, ih (cb + 1) (by omega)]
    rw [List.range'_succ]
    simp

/-- C8: for the last piece of the torrent (`pi = pc - 1`), a call of
`send_requests` covering the whole piece (`current_block = 0`,
`request_per_call = block_count`) issues Requests for consecutive blocks of
the configured `block_length` — `(pi, k·bl, bl)` for `k < K` — and a final
truncated Request at block `K = ceil(r/bl) - 1` (where `r = fs - pi·pl` is
the data remaining in the last piece) whose length satisfies
`pi·pl + begin + length = total_length` exactly. -/
theorem sendRequests_last_piece_truncation (pi pl bl bc pc fs : Nat)
    (hbl : 0 < bl) (hdvd : bl ∣ pl) (hbc : bc = pl / bl) (hbc1 : 0 < bc)
    (hpc : 0 < pc) (hpi : pi = pc - 1)
    (hlow : (pc - 1) * pl < fs) (hhigh : fs ≤ pc * pl) (hU : pc * pl < U32) :
    sendRequests pi pl bl bc pc fs bc 0 =
      (List.range ((fs - pi * pl - 1) / bl)).map (fun k => (pi, k * bl, bl)) ++
        [(pi, ((fs - pi * pl - 1) / bl) * bl,
          (fs - pi * pl) - ((fs - pi * pl - 1) / bl) * bl)] ∧
    pi * pl + (((fs - pi * pl - 1) / bl) * bl +
      ((fs - pi * pl) - ((fs - pi * pl - 1) / bl) * bl)) = fs := by
  have hplbc : pl = bc * bl := by
    rw [hbc, Nat.div_mul_cancel hdvd]
  have hpcpl : pi * pl + pl = pc * pl := by
    rw [hpi, Nat.sub_one_mul]
    have h1 : pl ≤ pc * pl := by
      calc pl = 1 * pl := (Nat.one_mul pl).symm
        _ ≤ pc * pl := Nat.mul_le_mul_right pl hpc
    omega
  have hlow' : pi * pl < fs := by rw [hpi]; exact hlow
  have hhigh' : fs ≤ pi * pl + pl := by omega
  have hU' : pi * pl + pl < U32 := by omega
  have hKble : ((fs - pi * pl - 1) / bl) * bl ≤ fs - pi * pl - 1 :=
    Nat.div_mul_le_self _ _
  have hpl1 : 0 < pl := by
    rw [hplbc]
    exact Nat.mul_pos hbc1 hbl
  have hpile : pi ≤ pi * pl := Nat.le_mul_of_pos_right pi hpl1
  constructor
  · have hspec := sendRequestsLoop_spec pi pl bl bc pc fs hbl hplbc hbc1 hpc hpi
      hlow' hhigh' hU' ((fs - pi * pl - 1) / bl) 0 (Nat.zero_add _)
    have hmods : sendRequests pi pl bl bc pc fs bc 0 =
        sendRequestsLoop pi pl bl bc pc fs (bc - 0) 0 := by
      unfold sendRequests
      have h1 : pi % U32 = pi := Nat.mod_eq_of_lt (by omega)
      have h2 : pl % U32 = pl := Nat.mod_eq_of_lt (by omega)
      have h3 : fs % U32 = fs := Nat.mod_eq_of_lt (by omega)
      rw [h1, h2, h3]
      have h4 : min bc (0 + bc) = bc := by omega
      rw [h4]
    rw [hmods, hspec, List.range_eq_range']
  · omega

/-- Witness for `sendRequests_last_piece_truncation`: `piece_length = 8`,
`block_length = 4`, two pieces of which the last holds 5 bytes
(`total_length = 13`): the call issues `(1, 0, 4)` then the truncated
`(1, 4, 1)`, and `1·8 + 4 + 1 = 13`. -/
theorem sendRequests_last_piece_truncation_witness :
    ((0 : Nat) < 4 ∧ (4 : Nat) ∣ 8 ∧ (2 : Nat) = 8 / 4 ∧ (0 : Nat) < 2 ∧
      (1 : Nat) = 2 - 1 ∧ (2 - 1) * 8 < 13 ∧ (13 : Nat) ≤ 2 * 8 ∧
      2 * 8 < U32) ∧
    sendRequests 1 8 4 2 2 13 2 0 = [(1, 0, 4), (1, 4, 1)] ∧
    1 * 8 + (4 + 1) = 13 :=
  ⟨⟨by decide, by decide, by decide, by decide, by decide, by decide, by decide,
      by norm_num [U32]⟩,
   by
    have h := (sendRequests_last_piece_truncation 1 8 4 2 2 13 (by decide)
      (by decide) (by decide) (by decide) (by decide) (by decide) (by decide)
      (by decide) (by norm_num [U32])).1
    rw [h]
    decide,
   by norm_num⟩

end Peer

namespace Bencode

theorem natDecimal_digits : ∀ n, ∀ c ∈ natDecimal n, 48 ≤ c ∧ c ≤ 57 := by
  intro n
  induction n using Nat.strong_induction_on with
  | _ n ih =>
    rw [natDecimal]
    split
    · rename_i h
      intro c hc
      simp only [List.mem_singleton] at hc
      omega
    · rename_i h
      intro c hc
      rw [List.mem_append] at hc
      rcases hc with hc | hc
      · exact ih (n / 10) (Nat.div_lt_self (by omega) (by omega)) c hc
      · simp only [List.mem_singleton] at hc
        have := Nat.mod_lt n (show 0 < 10 by omega)
        omega

theorem natDecimal_head (n : Nat) :
    ∃ c t, natDecimal n = c :: t ∧ 48 ≤ c ∧ c ≤ 57 := by
  rcases hn : natDecimal n with _ | ⟨c, t⟩
  · exfalso
    rw [natDecimal] at hn
    split at hn
    · cases hn
    · exact List.append_ne_nil_of_right_ne_nil _ (by simp) hn
  · have hc := natDecimal_digits n c (by rw [hn]; simp)
    exact ⟨c, t, rfl, hc.1, hc.2⟩

theorem readDigitsAux_stop (acc : Nat) (r : List Nat)
    (hr : ∀ c, r.head? = some c → isDigit c = false) :
    readDigitsAux acc r = (acc, r) := by
  cases r with
  | nil => rfl
  | cons c t => simp [readDigitsAux, hr c rfl]

theorem readDigitsAux_natDecimal : ∀ n acc r,
    readDigitsAux acc (natDecimal n ++ r) =
      readDigitsAux (acc * 10 ^ (natDecimal n).length + n) r := by
  intro n
  induction n using Nat.strong_induction_on with
  | _ n ih =>
    intro acc r
    rw [natDecimal]
    split
    · rename_i h
      simp only [List.singleton_append, List.length_singleton, readDigitsAux]
      rw [if_pos (by simp [isDigit]; omega)]
      have : acc * 10 + (48 + n - 48) = acc * 10 ^ 1 + n := by omega
      rw [this]
      simp
    · rename_i h
      rw [List.append_assoc, ih (n / 10) (Nat.div_lt_self (by omega) (by omega))]
      simp only [List.singleton_append, readDigitsAux]
      rw [if_pos (by
        simp only [isDigit, Bool.and_eq_true, decide_eq_true_eq]
        have := Nat.mod_lt n (show 0 < 10 by omega)
        omega)]
      have hlen : (natDecimal (n / 10) ++ [48 + n % 10]).length =
          (natDecimal (n / 10)).length + 1 := by simp
      rw [hlen]
      have harith : (acc * 10 ^ (natDecimal (n / 10)).length + n / 10) * 10 +
          (48 + n % 10 - 48) = acc * 10 ^ ((natDecimal (n / 10)).length + 1) + n := by
        rw [pow_succ, ← mul_assoc]
        have hdm := Nat.div_add_mod n 10
        set A := acc * 10 ^ (natDecimal (n / 10)).length
        omega
      rw [harith]
      simp

theorem readNatDigits_natDecimal (n : Nat) (r : List Nat)
    (hr : ∀ c, r.head? = some c → isDigit c = false) :
    readNatDigits (natDecimal n ++ r) = some (n, r) := by
  obtain ⟨c, t, hct, hc1, hc2⟩ := natDecimal_head n
  rw [hct, List.cons_append, readNatDigits]
  rw [if_pos (by simp [isDigit]; omega)]
  rw [← List.cons_append, ← hct, readDigitsAux_natDecimal,
    readDigitsAux_stop _ _ hr]
  simp

theorem isSpace_of_digit (c : Nat) (h1 : 48 ≤ c) (h2 : c ≤ 57) :
    isSpace c = false := by
  simp only [isSpace, Bool.or_eq_false_iff, decide_eq_false_iff_not,
    Bool.and_eq_false_iff]
  omega

theorem skipWs_no_ws (c : Nat) (l : List Nat) (h : isSpace c = false) :
    skipWs (c :: l) = c :: l := by
  simp [skipWs, h]

theorem readCppInt_natDecimal (n : Nat) (hn : n < 2 ^ 31) (r : List Nat)
    (hr : ∀ c, r.head? = some c → isDigit c = false) :
    readCppInt (natDecimal n ++ r) = some ((n : Int), r) := by
  obtain ⟨c, t, hct, hc1, hc2⟩ := natDecimal_head n
  have h1 : skipWs (natDecimal n ++ r) = c :: (t ++ r) := by
    rw [hct, List.cons_append]
    exact skipWs_no_ws c _ (isSpace_of_digit c hc1 hc2)
  rw [readCppInt, h1]
  dsimp only
  rw [if_neg (by omega), if_neg (by omega)]
  rw [← List.cons_append, ← hct, readNatDigits_natDecimal n r hr]
  dsimp only
  rw [if_pos hn]

theorem readCppInt_intToDecimal (v : Int) (hlo : -(2 ^ 31) ≤ v)
    (hhi : v < 2 ^ 31) (r : List Nat)
    (hr : ∀ c, r.head? = some c → isDigit c = false) :
    readCppInt (intToDecimal v ++ r) = some (v, r) := by
  rw [intToDecimal]
  split
  · rename_i hv
    rw [List.cons_append, readCppInt,
      skipWs_no_ws 45 _ (by simp [isSpace])]
    dsimp only
    rw [if_pos rfl, readNatDigits_natDecimal _ r hr]
    dsimp only
    rw [if_pos (by
      rw [Int.toNat_of_nonneg (by omega : (0 : Int) ≤ -v)]
      omega)]
    rw [Int.toNat_of_nonneg (by omega : (0 : Int) ≤ -v)]
    simp
  · rename_i hv
    rw [readCppInt_natDecimal v.toNat (by omega) r hr]
    rw [Int.toNat_of_nonneg (by omega)]

theorem parseStr_spec (s : List Nat) (hs : s.length < 2 ^ 31) (r : List Nat) :
    parseStr (natDecimal s.length ++ 58 :: (s ++ r)) = some (s, r) := by
  rw [parseStr, readCppInt_natDecimal s.length hs (58 :: (s ++ r))
    (by intro c hc; simp at hc; subst hc; simp [isDigit])]
  dsimp only
  have ht : ((s.length : Int)).toNat = s.length := Int.toNat_natCast _
  rw [if_pos rfl, if_neg (by simp), ht, if_neg (by simp)]
  rw [List.take_left, List.drop_left]

theorem ltString_asymm : ∀ a b, ltString a b = true → ltString b a = false := by
  intro a
  induction a with
  | nil =>
    intro b h
    cases b with
    | nil => simp [ltString] at h
    | cons d u => rfl
  | cons c t ih =>
    intro b h
    cases b with
    | nil => simp [ltString] at h
    | cons d u =>
      rw [ltString] at h ⊢
      by_cases h1 : c < d
      · rw [if_neg (by omega), if_pos h1]
      · by_cases h2 : d < c
        · rw [if_neg h1, if_pos h2] at h
          cases h
        · rw [if_neg h1, if_neg h2] at h
          rw [if_neg (by omega), if_neg (by omega)]
          exact ih u h

theorem ltString_trans :
    ∀ a b c, ltString a b = true → ltString b c = true → ltString a c = true := by
  intro a
  induction a with
  | nil =>
    intro b c h1 h2
    cases b with
    | nil => simp [ltString] at h1
    | cons y ys =>
      cases c with
      | nil => simp [ltString] at h2
      | cons z zs => rfl
  | cons x xs ih =>
    intro b c h1 h2
    cases b with
    | nil => simp [ltString] at h1
    | cons y ys =>
      cases c with
      | nil => simp [ltString] at h2
      | cons z zs =>
        rw [ltString] at h1 h2 ⊢
        by_cases hxy : x < y
        · by_cases hyz : y < z
          · rw [if_pos (by omega)]
          · by_cases hzy : z < y
            · rw [if_neg hyz, if_pos hzy] at h2
              cases h2
            · rw [if_pos (by omega)]
        · by_cases hyx : y < x
          · rw [if_neg hxy, if_pos hyx] at h1
            cases h1
          · rw [if_neg hxy, if_neg hyx] at h1
            by_cases hyz : y < z
            · rw [if_pos (by omega)]
            · by_cases hzy : z < y
              · rw [if_neg hyz, if_pos hzy] at h2
                cases h2
              · rw [if_neg hyz, if_neg hzy] at h2
                rw [if_neg (by omega), if_neg (by omega)]
                exact ih ys zs h1 h2

theorem bencode_head (x : Element) : ∃ c t, bencode x = c :: t ∧ c ≠ 101 := by
  cases x with
  | int v =>
    exact ⟨105, intToDecimal v ++ [101], by simp [bencode], by omega⟩
  | str s =>
    obtain ⟨c, t, hct, h1, h2⟩ := natDecimal_head s.length
    refine ⟨c, t ++ 58 :: s, ?_, by omega⟩
    rw [bencode, hct]
    simp
  | list xs =>
    exact ⟨108, bencodeItems xs ++ [101], by simp [bencode], by omega⟩
  | dict kvs =>
    exact ⟨100, bencodePairs kvs ++ [101], by simp [bencode], by omega⟩

theorem one_le_neededFuel (x : Element) : 1 ≤ neededFuel x := by
  cases x <;> rw [neededFuel] <;> omega

theorem one_le_neededItems (xs : List Element) : 1 ≤ neededItems xs := by
  cases xs with
  | nil => rw [neededItems]
  | cons x t => rw [neededItems]; omega

theorem one_le_neededPairs (kvs : List (List Nat × Element)) :
    1 ≤ neededPairs kvs := by
  cases kvs with
  | nil => rw [neededPairs]
  | cons kv t =>
    rcases kv with ⟨k, v⟩
    rw [neededPairs]
    omega

theorem emplace_append (k : List Nat) (v : Element) :
    ∀ acc : List (List Nat × Element),
      (∀ k' ∈ acc.map Prod.fst, ltString k' k = true) →
      emplace k v acc = acc ++ [(k, v)] := by
  intro acc
  induction acc with
  | nil => intro _; rfl
  | cons kv t ih =>
    rcases kv with ⟨k', v'⟩
    intro h
    have hk'k : ltString k' k = true := h k' (by simp)
    rw [emplace, if_neg (by rw [ltString_asymm k' k hk'k]; simp),
      if_pos hk'k, ih (fun a ha => h a (by simp [ha]))]
    simp

theorem mem_keys_emplace (k : List Nat) (v : Element) :
    ∀ d a, a ∈ (emplace k v d).map Prod.fst → a ∈ d.map Prod.fst ∨ a = k := by
  intro d
  induction d with
  | nil =>
    intro a ha
    simp [emplace] at ha
    exact Or.inr ha
  | cons kv t ih =>
    rcases kv with ⟨k', v'⟩
    intro a ha
    rw [emplace] at ha
    split at ha
    · simp at ha
      rcases ha with ha | ha | ha
      · exact Or.inr ha
      · exact Or.inl (by simp [ha])
      · exact Or.inl (by simp; exact Or.inr ha)
    · split at ha
      · simp at ha
        rcases ha with ha | ha
        · exact Or.inl (by simp [ha])
        · rcases ih a (by simpa using ha) with h | h
          · exact Or.inl (by simp; exact Or.inr (by simpa using h))
          · exact Or.inr h
      · exact Or.inl ha

theorem emplace_pairwise (k : List Nat) (v : Element) :
    ∀ d : List (List Nat × Element),
      List.Pairwise (fun a b => ltString a b = true) (d.map Prod.fst) →
      List.Pairwise (fun a b => ltString a b = true)
        ((emplace k v d).map Prod.fst) := by
  intro d
  induction d with
  | nil => intro _; simp [emplace]
  | cons kv t ih =>
    rcases kv with ⟨k', v'⟩
    intro hd
    rw [List.map_cons, List.pairwise_cons] at hd
    obtain ⟨hhead, htail⟩ := hd
    rw [emplace]
    split
    · rename_i hkk'
      rw [List.map_cons, List.map_cons, List.pairwise_cons, List.pairwise_cons]
      refine ⟨?_, hhead, htail⟩
      intro b hb
      simp only [List.mem_cons] at hb
      rcases hb with rfl | hb
      · exact hkk'
      · exact ltString_trans k k' b hkk' (hhead b hb)
    · split
      · rename_i hkk' hk'k
        rw [List.map_cons, List.pairwise_cons]
        refine ⟨?_, ih htail⟩
        intro b hb
        rcases mem_keys_emplace k v t b hb with h | rfl
        · exact hhead b h
        · exact hk'k
      · rw [List.map_cons, List.pairwise_cons]
        exact ⟨hhead, htail⟩

/-- The joint induction on the recursion budget: the three parser loops read
back exactly what the serializer emitted.  The dictionary loop carries the
already-emplaced prefix `acc` and the strict key ordering of the whole
entry sequence. -/
theorem parse_bencode (fuel : Nat) :
    (∀ x rest, WellFormed x → neededFuel x ≤ fuel →
      parseNext fuel (bencode x ++ rest) = some (x, rest)) ∧
    (∀ xs rest, (∀ x ∈ xs, WellFormed x) → neededItems xs ≤ fuel →
      parseItems fuel (bencodeItems xs ++ 101 :: rest) = some (xs, rest)) ∧
    (∀ kvs acc rest,
      (∀ kv ∈ kvs, kv.1.length < 2 ^ 31 ∧ WellFormed kv.2) →
      List.Pairwise (fun a b => ltString a b = true)
        (acc.map Prod.fst ++ kvs.map Prod.fst) →
      neededPairs kvs ≤ fuel →
      parsePairs fuel acc (bencodePairs kvs ++ 101 :: rest) =
        some (acc ++ kvs, rest)) := by
  induction fuel with
  | zero =>
    refine ⟨?_, ?_, ?_⟩
    · intro x _ _ hf
      have := one_le_neededFuel x
      omega
    · intro xs _ _ hf
      have := one_le_neededItems xs
      omega
    · intro kvs _ _ _ _ hf
      have := one_le_neededPairs kvs
      omega
  | succ f ih =>
    obtain ⟨ihN, ihI, ihP⟩ := ih
    refine ⟨?_, ?_, ?_⟩
    · intro x rest hwf hfuel
      cases x with
      | int v =>
        cases hwf with
        | int hlo hhi =>
          have hb : bencode (.int v) ++ rest =
              105 :: (intToDecimal v ++ (101 :: rest)) := by
            simp [bencode]
          rw [hb, parseNext, if_neg (by decide), if_pos rfl]
          rw [readCppInt_intToDecimal v hlo hhi _ (by
            intro c hc
            simp at hc
            subst hc
            decide)]
          dsimp only
          rw [if_pos rfl]
      | str s =>
        cases hwf with
        | str hlen hbytes =>
          obtain ⟨c, t, hct, h1, h2⟩ := natDecimal_head s.length
          have hb : bencode (.str s) ++ rest =
              c :: (t ++ (58 :: (s ++ rest))) := by
            rw [bencode, hct]
            simp
          rw [hb, parseNext, if_pos (show isDigit c = true by
            simp only [isDigit, Bool.and_eq_true, decide_eq_true_eq]
            omega)]
          have hx : c :: (t ++ (58 :: (s ++ rest))) =
              natDecimal s.length ++ 58 :: (s ++ rest) := by
            rw [hct]
            simp
          rw [hx, parseStr_spec s hlen rest]
      | list xs =>
        cases hwf with
        | list hall =>
          have hb : bencode (.list xs) ++ rest =
              108 :: (bencodeItems xs ++ 101 :: rest) := by
            simp [bencode]
          rw [hb, parseNext, if_neg (by decide), if_neg (by decide), if_pos rfl]
          rw [ihI xs rest hall (by rw [neededFuel] at hfuel; omega)]
      | dict kvs =>
        cases hwf with
        | dict hchain hlen hbytes hvals =>
          have hb : bencode (.dict kvs) ++ rest =
              100 :: (bencodePairs kvs ++ 101 :: rest) := by
            simp [bencode]
          rw [hb, parseNext, if_neg (by decide), if_neg (by decide),
            if_neg (by decide), if_pos rfl]
          haveI : IsTrans (List Nat) (fun a b => ltString a b = true) :=
            ⟨fun a b c => ltString_trans a b c⟩
          have hpw : List.Pairwise (fun a b => ltString a b = true)
              (([] : List (List Nat × Element)).map Prod.fst ++
                kvs.map Prod.fst) := by
            simpa using List.chain'_iff_pairwise.mp hchain
          rw [ihP kvs [] rest (fun kv hkv => ⟨hlen kv hkv, hvals kv hkv⟩) hpw
            (by rw [neededFuel] at hfuel; omega)]
          simp
    · intro xs rest hall hfuel
      cases xs with
      | nil =>
        have hb : bencodeItems ([] : List Element) ++ 101 :: rest =
            101 :: rest := by
          simp [bencodeItems]
        rw [hb, parseItems, if_pos rfl]
      | cons x t =>
        obtain ⟨c, cs, hc, hcne⟩ := bencode_head x
        have hb : bencodeItems (x :: t) ++ 101 :: rest =
            c :: (cs ++ (bencodeItems t ++ 101 :: rest)) := by
          rw [bencodeItems, hc]
          simp
        rw [hb, parseItems, if_neg hcne]
        have hx : c :: (cs ++ (bencodeItems t ++ 101 :: rest)) =
            bencode x ++ (bencodeItems t ++ 101 :: rest) := by
          rw [hc]
          simp
        rw [hx, ihN x _ (hall x (by simp))
          (by rw [neededItems] at hfuel; omega)]
        dsimp only
        rw [ihI t rest (fun y hy => hall y (by simp [hy]))
          (by rw [neededItems] at hfuel; omega)]
    · intro kvs acc rest hkv hpw hfuel
      cases kvs with
      | nil =>
        have hb : bencodePairs ([] : List (List Nat × Element)) ++ 101 :: rest =
            101 :: rest := by
          simp [bencodePairs]
        rw [hb, parsePairs, if_pos rfl]
        simp
      | cons kv t =>
        rcases kv with ⟨k, v⟩
        rw [List.map_cons] at hpw
        obtain ⟨c, ct, hct, h1, h2⟩ := natDecimal_head k.length
        have hb : bencodePairs ((k, v) :: t) ++ 101 :: rest =
            c :: (ct ++ (58 :: (k ++ (bencode v ++
              (bencodePairs t ++ 101 :: rest))))) := by
          rw [bencodePairs, hct]
          simp
        rw [hb, parsePairs, if_neg (by omega : ¬c = 101)]
        have hx : c :: (ct ++ (58 :: (k ++ (bencode v ++
            (bencodePairs t ++ 101 :: rest))))) =
            natDecimal k.length ++ 58 :: (k ++ (bencode v ++
              (bencodePairs t ++ 101 :: rest))) := by
          rw [hct]
          simp
        rw [hx, parseStr_spec k (hkv (k, v) (by simp)).1 _]
        dsimp only
        rw [ihN v _ (hkv (k, v) (by simp)).2
          (by rw [neededPairs] at hfuel; omega)]
        dsimp only
        have hemp : emplace k v acc = acc ++ [(k, v)] := by
          apply emplace_append
          intro k' hk'
          exact (List.pairwise_append.mp hpw).2.2 k' hk' k (by simp)
        rw [hemp]
        have hpw' : List.Pairwise (fun a b => ltString a b = true)
            ((acc ++ [(k, v)]).map Prod.fst ++ t.map Prod.fst) := by
          rw [List.map_append]
          rw [List.append_assoc]
          simpa using hpw
        rw [ihP t (acc ++ [(k, v)]) rest
          (fun kv2 hkv2 => hkv kv2 (by simp [hkv2])) hpw'
          (by rw [neededPairs] at hfuel; omega)]
        simp

theorem bencode_length_pos (x : Element) : 1 ≤ (bencode x).length := by
  obtain ⟨c, t, hct, _⟩ := bencode_head x
  rw [hct]
  simp

/-- The recursion budget needed to parse `bencode x` back never exceeds the
length of the serialized form. -/
theorem needed_le_len : ∀ N,
    (∀ x : Element, neededFuel x ≤ N → neededFuel x ≤ (bencode x).length) ∧
    (∀ xs : List Element, neededItems xs ≤ N →
      neededItems xs ≤ (bencodeItems xs).length + 1) ∧
    (∀ kvs : List (List Nat × Element), neededPairs kvs ≤ N →
      neededPairs kvs ≤ (bencodePairs kvs).length + 1) := by
  intro N
  induction N with
  | zero =>
    refine ⟨?_, ?_, ?_⟩
    · intro x hx
      have := one_le_neededFuel x
      omega
    · intro xs hx
      have := one_le_neededItems xs
      omega
    · intro kvs hx
      have := one_le_neededPairs kvs
      omega
  | succ n ih =>
    obtain ⟨ihN, ihI, ihP⟩ := ih
    refine ⟨?_, ?_, ?_⟩
    · intro x hx
      cases x with
      | int v =>
        rw [neededFuel]
        have := bencode_length_pos (.int v)
        omega
      | str s =>
        rw [neededFuel]
        have := bencode_length_pos (.str s)
        omega
      | list xs =>
        rw [neededFuel] at hx ⊢
        have hI : neededItems xs ≤ (bencodeItems xs).length + 1 :=
          ihI xs (by omega)
        have hlen : (bencode (.list xs)).length = (bencodeItems xs).length + 2 := by
          simp [bencode]
        omega
      | dict kvs =>
        rw [neededFuel] at hx ⊢
        have hP : neededPairs kvs ≤ (bencodePairs kvs).length + 1 :=
          ihP kvs (by omega)
        have hlen : (bencode (.dict kvs)).length = (bencodePairs kvs).length + 2 := by
          simp [bencode]
        omega
    · intro xs hx
      cases xs with
      | nil =>
        rw [neededItems]
        simp [bencodeItems]
      | cons x t =>
        rw [neededItems] at hx ⊢
        have h1 : neededFuel x ≤ (bencode x).length := ihN x (by omega)
        have h2 : neededItems t ≤ (bencodeItems t).length + 1 := ihI t (by omega)
        have hlen : (bencodeItems (x :: t)).length =
            (bencode x).length + (bencodeItems t).length := by
          simp [bencodeItems]
        have hpos := bencode_length_pos x
        omega
    · intro kvs hx
      cases kvs with
      | nil =>
        rw [neededPairs]
        simp [bencodePairs]
      | cons kv t =>
        rcases kv with ⟨k, v⟩
        rw [neededPairs] at hx ⊢
        have h1 : neededFuel v ≤ (bencode v).length := ihN v (by omega)
        have h2 : neededPairs t ≤ (bencodePairs t).length + 1 := ihP t (by omega)
        have hlen : (bencodePairs ((k, v) :: t)).length =
            (natDecimal k.length).length + 1 + k.length +
              ((bencode v).length + (bencodePairs t).length) := by
          simp [bencodePairs]
          omega
        obtain ⟨c, ct, hct, _, _⟩ := natDecimal_head k.length
        have hdl : 1 ≤ (natDecimal k.length).length := by
          rw [hct]
          simp
        omega

theorem neededFuel_le_length (x : Element) :
    neededFuel x ≤ (bencode x).length :=
  (needed_le_len (neededFuel x)).1 x (le_refl _)

/-- C7: bencode round-trip and dictionary key order.
(1) For every well-formed `Element` tree `x` — integers in `int` range, byte
strings, nested lists and dictionaries with the `std::map` strictly-sorted
key invariant — `bdecode (bencode x) = some x`.
(2) The stream form: the parser consumes exactly the serialized bytes and
returns `x` with any trailing bytes untouched, for any recursion budget
`fuel ≥ neededFuel x` (the C++ recursion is unbounded).
(3) Every dictionary value the parser can build — a fold of
`std::map::emplace` over any insertion sequence — has its keys in strictly
increasing lexicographic byte order, and `element_to_bencode` writes
dictionary entries in exactly that order. -/
theorem bencode_bdecode_roundtrip :
    (∀ x, WellFormed x → bdecode (bencode x) = some x) ∧
    (∀ x fuel rest, WellFormed x → neededFuel x ≤ fuel →
      parseNext fuel (bencode x ++ rest) = some (x, rest)) ∧
    (∀ insertions : List (List Nat × Element),
      List.Pairwise (fun a b => ltString a b = true)
        ((insertions.foldl (fun acc kv => emplace kv.1 kv.2 acc) []).map
          Prod.fst)) := by
  refine ⟨?_, ?_, ?_⟩
  · intro x hwf
    rw [bdecode]
    have h := (parse_bencode ((bencode x).length + 1)).1 x [] hwf
      (by have := neededFuel_le_length x; omega)
    rw [List.append_nil] at h
    rw [h]
    rfl
  · intro x fuel rest hwf hf
    exact (parse_bencode fuel).1 x rest hwf hf
  · intro l
    have H : ∀ (l : List (List Nat × Element)) (acc : List (List Nat × Element)),
        List.Pairwise (fun a b => ltString a b = true) (acc.map Prod.fst) →
        List.Pairwise (fun a b => ltString a b = true)
          ((l.foldl (fun acc kv => emplace kv.1 kv.2 acc) acc).map Prod.fst) := by
      intro l
      induction l with
      | nil => intro acc h; simpa using h
      | cons kv t ih =>
        intro acc h
        rw [List.foldl_cons]
        exact ih _ (emplace_pairwise kv.1 kv.2 acc h)
    exact H l [] (by simp)

/-- Witness for `bencode_bdecode_roundtrip` on a tree exercising every
constructor: a dictionary with keys `"a" < "bc"`, an out-of-ASCII byte
string, a nested list, and positive and negative integers. -/
theorem bencode_bdecode_roundtrip_witness :
    bdecode (bencode (Element.dict [([97], Element.int (-42)),
        ([98, 99], Element.list [Element.str [0, 255], Element.int 7])])) =
      some (Element.dict [([97], Element.int (-42)),
        ([98, 99], Element.list [Element.str [0, 255], Element.int 7])]) := by
  have hwf : WellFormed (Element.dict [([97], Element.int (-42)),
      ([98, 99], Element.list [Element.str [0, 255], Element.int 7])]) := by
    refine WellFormed.dict ?_ ?_ ?_ ?_
    · simp only [List.map_cons, List.map_nil, List.chain'_cons,
        List.chain'_singleton, and_true]
      decide
    · intro kv hkv
      simp only [List.mem_cons, List.not_mem_nil, or_false] at hkv
      rcases hkv with rfl | rfl <;> decide
    · intro kv hkv b hb
      simp only [List.mem_cons, List.not_mem_nil, or_false] at hkv
      rcases hkv with rfl | rfl <;> simp at hb <;> omega
    · intro kv hkv
      simp only [List.mem_cons, List.not_mem_nil, or_false] at hkv
      rcases hkv with rfl | rfl
      · exact WellFormed.int (by decide) (by decide)
      · refine WellFormed.list ?_
        intro x hx
        simp only [List.mem_cons, List.not_mem_nil, or_false] at hx
        rcases hx with rfl | rfl
        · refine WellFormed.str (by decide) ?_
          intro b hb
          simp at hb
          omega
        · exact WellFormed.int (by decide) (by decide)
  exact bencode_bdecode_roundtrip.1 _ hwf

end Bencode

end Torrent
